import Mathlib

/-!
Verification of the AI-Chat-TOC browser extension core
(site-adapter query extraction + TOC panel lifecycle).

Shallow embedding of the JavaScript sources:
  * `src/Chrome/main.js`  — per-site adapters (`SITES.chatgpt/gemini/perplexity/claude`)
  * the UI module        — `PositionManager`, `DragManager`, `SearchManager`, `UI`

Conventions of the embedding:
  * DOM text contents are plain `String`s; element references are dropped when
    a claim does not mention them (query identity is positional).
  * JavaScript numbers used for coordinates/sizes become `Int`.
  * Timer behaviour (debounce / cooldown) is modelled by explicit time stamps
    (`Int` instants) threaded through the step functions.
-/

namespace TOC

/-! ### Whitespace primitives (JS `trim` and `replace(/\s+/g, " ")`) -/

/-- JS whitespace for the purposes of `\s` and `String.prototype.trim`
(restricted to the ASCII whitespace characters that can occur in
`textContent`). -/
def isWs (c : Char) : Bool :=
  c = ' ' || c = '\t' || c = '\n' || c = '\r'

/-- `s.substring(0, n)` of JavaScript. -/
def jsSubstring (s : String) (n : Nat) : String :=
  ⟨s.data.take n⟩

/-- JS `s.toLowerCase()` (character-wise lowering). -/
def jsToLower (s : String) : String :=
  ⟨s.data.map Char.toLower⟩

/-- JS `s.startsWith(pre)`. -/
def jsStartsWith (s pre : String) : Bool :=
  pre.data.isPrefixOf s.data

/-- Drop leading whitespace characters. -/
def trimLeftL (l : List Char) : List Char :=
  l.dropWhile isWs

/-- Drop trailing whitespace characters. -/
def trimRightL (l : List Char) : List Char :=
  (l.reverse.dropWhile isWs).reverse

/-- Character-list form of JS `trim`. -/
def trimList (l : List Char) : List Char :=
  trimRightL (trimLeftL l)

/-- JS `s.trim()`. -/
def jsTrim (s : String) : String :=
  ⟨trimList s.data⟩

/-- Replace every maximal run of whitespace by a single space
(the flag records whether the previous character was whitespace, so a run
contributes one space). Character-list engine of `replace(/\s+/g, " ")`. -/
def collapseAux : Bool → List Char → List Char
  | _, [] => []
  | prevWs, c :: cs =>
    if isWs c then
      if prevWs then collapseAux true cs
      else ' ' :: collapseAux true cs
    else c :: collapseAux false cs

/-- JS `s.replace(/\s+/g, " ")`. -/
def collapseWs (s : String) : String :=
  ⟨collapseAux false s.data⟩

/-- JS `s.replace(/\s+/g, " ").trim()` — the normalization used by the
Gemini adapter. -/
def normalize (s : String) : String :=
  jsTrim (collapseWs s)

/-- JS `Array.prototype.join(" ")`. -/
def joinSp : List String → String
  | [] => ""
  | [s] => s
  | s :: ss => s ++ " " ++ joinSp ss

/-- JS `Array.prototype.join("\n")`. -/
def joinNl : List String → String
  | [] => ""
  | [s] => s
  | s :: ss => s ++ "\n" ++ joinNl ss

/-! ### Normalization predicates (what the spec calls "whitespace-normalized") -/

/-- The first character, if any, is not whitespace. -/
def headNotWs : List Char → Bool
  | [] => true
  | c :: _ => !isWs c

/-- No two adjacent whitespace characters (runs are collapsed). -/
def NoTwoWs (l : List Char) : Prop :=
  List.Chain' (fun a b => ¬(isWs a = true ∧ isWs b = true)) l

/-- Trimmed at both ends. -/
def TrimmedStr (s : String) : Prop :=
  headNotWs s.data = true ∧ headNotWs s.data.reverse = true

/-- Fully whitespace-normalized: trimmed at both ends, runs of whitespace
collapsed, and every whitespace character is a plain space. -/
def NormalizedStr (s : String) : Prop :=
  TrimmedStr s ∧ NoTwoWs s.data ∧ ∀ c ∈ s.data, isWs c = true → c = ' '

/-! ### PositionManager.constrainToViewport -/

/-- `PositionManager.constrainToViewport(x, y, elementWidth, elementHeight)`.
`innerWidth`/`innerHeight` are the `window` viewport dimensions read inside
the method; they are passed explicitly. -/
def constrainToViewport (innerWidth innerHeight x y elementWidth elementHeight : Int) :
    Int × Int :=
  let padding : Int := 10
  let minX := padding
  let minY := padding
  let maxX := innerWidth - elementWidth - padding
  let maxY := innerHeight - elementHeight - padding
  (max minX (min x maxX), max minY (min y maxY))

/-! ### DragManager.toggleCollapse -/

/-- Geometric state of the panel element as `toggleCollapse` sees it:
the layout box (`getBoundingClientRect`), the `dataset.expandedWidth`
attribute, and the collapsed CSS class. -/
structure PanelBox where
  x : Int
  y : Int
  width : Int
  height : Int
  datasetExpandedWidth : Option Int
  collapsed : Bool
  deriving Repr, DecidableEq

/-- `parseFloat(this.element.dataset.expandedWidth) || 300`: an absent
attribute parses to NaN (falsy) and a stored `0` is falsy, both defaulting
to 300. -/
def parseStoredWidth : Option Int → Int
  | some w => if w = 0 then 300 else w
  | none => 300

/-- `toggleCollapse(false)`: remember the expanded width, move right by
`expandedWidth - collapsedSize` so the compact control stays on the same
screen edge, and add the collapsed class (which shrinks the box to the
48-unit compact size). -/
def collapseStep (b : PanelBox) : PanelBox :=
  { b with
    datasetExpandedWidth := some b.width
    x := b.x + b.width - 48
    collapsed := true
    width := 48 }

/-- `toggleCollapse(true)`: recover the remembered width, move left by
`expandedWidth - collapsedSize`, remove the collapsed class, and reclamp to
the viewport. -/
def expandStep (innerWidth innerHeight : Int) (b : PanelBox) : PanelBox :=
  let expandedWidth := parseStoredWidth b.datasetExpandedWidth
  let newX := b.x - (expandedWidth - 48)
  let c := constrainToViewport innerWidth innerHeight newX b.y expandedWidth b.height
  { b with
    x := c.1
    y := c.2
    collapsed := false
    width := expandedWidth }

/-! ### UI rows, panel structure, createTOC -/

/-- `UI.populateTOCList` row truncation: texts longer than
`MAX_QUERY_LENGTH = 70` are cut to `70 - 3` characters and get the
`"..."` suffix. -/
def shortText (q : String) : String :=
  if q.length > 70 then jsSubstring q (70 - 3) ++ "..." else q

/-- One `<li>` row of the TOC list: the link's display text and its
`title` attribute (which always carries the full query text). -/
structure TocRow where
  display : String
  title : String
  deriving Repr, DecidableEq

/-- Build one row for a query, as `UI.populateTOCList` does. -/
def makeRow (q : String) : TocRow :=
  { display := shortText q, title := q }

/-- `UI.populateTOCList`: one row per query, in order. -/
def populateTOCList (qs : List String) : List TocRow :=
  qs.map makeRow

/-- The panel structure relevant to the claims: the list rows and the
footer text. -/
structure Panel where
  rows : List TocRow
  footer : String
  deriving Repr, DecidableEq

/-- `UI.buildTOCStructure`: populate the list and set the footer to
`"{N} queries"`. -/
def buildTOCStructure (qs : List String) : Panel :=
  { rows := populateTOCList qs
    footer := toString qs.length ++ " queries" }

/-- The `UI` state observed by `createTOC`: the cooldown stamp
`lastCreateTime` and whether a panel is in the document (at most one can
exist since it carries a fixed id). -/
structure UIState where
  lastCreateTime : Int
  panel : Option Panel
  deriving Repr, DecidableEq

/-- `UI.createTOC` at instant `now` with extraction result `queries`:
refuse under the 1000-unit cooldown; otherwise stamp the time, remove any
existing panel, and insert a fresh panel unless extraction was empty. -/
def createTOC (now : Int) (queries : List String) (s : UIState) : UIState :=
  if now - s.lastCreateTime < 1000 then s
  else
    let s₁ : UIState := { lastCreateTime := now, panel := none }
    if queries.isEmpty then s₁
    else { s₁ with panel := some (buildTOCStructure queries) }

/-- Timer semantics of `UI.debouncedCreateTOC`: each request clears any
pending timer and schedules a fresh one 300 units out; a pending timer
whose deadline has passed by the time the next request arrives has fired
(one `createTOC` call). Counts the fires produced by a request sequence,
including the final pending timer. -/
def debounceFires : List Int → Option Int → Nat
  | [], none => 0
  | [], some _ => 1
  | t :: ts, none => debounceFires ts (some (t + 300))
  | t :: ts, some deadline =>
    if deadline ≤ t then 1 + debounceFires ts (some (t + 300))
    else debounceFires ts (some (t + 300))

/-! ### Export actions -/

/-- `"{i}. {text}"` lines with 1-based display indices, the shape produced
by `questions.map((q, i) => ...)` in the export code. -/
def numberedLines (i : Nat) : List String → List String
  | [] => []
  | q :: qs => (toString i ++ ". " ++ q) :: numberedLines (i + 1) qs

/-- The `questions.forEach((q, i) => { md += `...` })` accumulation used by
both Markdown builders. -/
def mdAppendLines (i : Nat) (acc : String) : List String → String
  | [] => acc
  | q :: qs => mdAppendLines (i + 1) (acc ++ toString i ++ ". " ++ q ++ "\n") qs

/-- `UI.exportAsText`. -/
def exportAsText (qs : List String) : String :=
  joinNl (numberedLines 1 qs)

/-- `UI.exportAsMarkdown`; `localeDate` is `new Date().toLocaleDateString()`
read at call time. -/
def exportAsMarkdown (siteName localeDate : String) (qs : List String) : String :=
  let md := "# " ++ siteName ++ " Conversation Summary\n"
  let md := md ++ "_Exported on " ++ localeDate ++ "_\n\n"
  let md := md ++ "## Queries (" ++ toString qs.length ++ ")\n\n"
  mdAppendLines 1 md qs

/-- The two formats `UI.downloadAsFile` accepts. -/
inductive ExportFormat where
  | md
  | txt
  deriving Repr, DecidableEq

/-- `UI.downloadAsFile`, returning `(content, filename)`; `isoDate` is
`new Date().toISOString().split("T")[0]` read at call time (used both in
the Markdown subline and in the filename). -/
def downloadAsFile (siteName isoDate : String) (qs : List String)
    (format : ExportFormat) : String × String :=
  match format with
  | .md =>
    let content := "# " ++ siteName ++ " Conversation Summary\n"
    let content := content ++ "_Exported on " ++ isoDate ++ "_\n\n"
    let content := content ++ "## Queries (" ++ toString qs.length ++ ")\n\n"
    (mdAppendLines 1 content qs,
      jsToLower siteName ++ "-queries-" ++ isoDate ++ ".md")
  | .txt =>
    (joinNl (numberedLines 1 qs),
      jsToLower siteName ++ "-queries-" ++ isoDate ++ ".txt")

/-- Spec-side line shape of the Markdown export: header, subline, blank
line, queries heading, blank line, numbered lines, trailing newline. -/
def mdLinesSpec (siteName date : String) (qs : List String) : List String :=
  ["# " ++ siteName ++ " Conversation Summary",
   "_Exported on " ++ date ++ "_",
   "",
   "## Queries (" ++ toString qs.length ++ ")",
   ""] ++ numberedLines 1 qs ++ [""]

/-! ### Site adapters: ChatGPT, Perplexity, Claude

Each adapter's `getQueries` reads a `querySelectorAll` result; the
embedding takes the matched elements' `textContent` strings (in document
order) as input. -/

/-- `SITES.chatgpt.getQueries`: trim each matched element's text and keep
the non-empty ones (the `forEach` push). -/
def chatgptGetQueries : List String → List String
  | [] => []
  | t :: ts =>
    let text := jsTrim t
    if text = "" then chatgptGetQueries ts
    else text :: chatgptGetQueries ts

/-- `SITES.perplexity.getQueries`: map-trim-filter the primary selector's
matches; if that yields zero queries, do the same on the fallback
selector's matches. -/
def perplexityGetQueries (primary fallback : List String) : List String :=
  let queries := (primary.map jsTrim).filter (fun t => t != "")
  if queries.isEmpty then (fallback.map jsTrim).filter (fun t => t != "")
  else queries

/-- The dedup key of `SITES.claude.getQueries`: `q.text.substring(0, 100)`
(case-sensitive — no `toLowerCase` is applied). -/
def claudeKey (t : String) : String :=
  jsSubstring t 100

/-- The `seen`-set filter shared by the dedup passes: keep an element when
its key is not in `seen`, recording kept keys. Models
`if (seen.has(key)) return false; seen.add(key); return true`. -/
def dedupKeep (key : String → String) (seen : List String) :
    List String → List String
  | [] => []
  | t :: ts =>
    if key t ∈ seen then dedupKeep key seen ts
    else t :: dedupKeep key (key t :: seen) ts

/-- The selector-priority loop of `SITES.claude.getQueries`: walk the
tiers (one list of element texts per selector); on the first tier that has
elements, map-trim-filter it, and stop at the first tier whose filtered
result is non-empty. (When every tier with elements filters down to
nothing the loop leaves `queries` empty, as here.) -/
def claudePick : List (List String) → List String
  | [] => []
  | tier :: rest =>
    if tier.isEmpty then claudePick rest
    else
      let qs := (tier.map jsTrim).filter (fun t => t != "")
      if qs.isEmpty then claudePick rest else qs

/-- `SITES.claude.getQueries`: tiered selection then first-100-characters
dedup keeping the first occurrence. -/
def claudeGetQueries (tiers : List (List String)) : List String :=
  dedupKeep claudeKey [] (claudePick tiers)

/-! ### Site adapter: Gemini

Branch 1 of `SITES.gemini.getQueries` works per container matched by
`".user-message, .query"`; branch 2 (no containers) walks the flat node
list matched by `".query-text-line, .user-message, .query"` and merges
consecutive sibling line-nodes. -/

/-- A container match for branch 1: the `textContent`s of its
`.query-text-line` descendants (document order) and its own
`textContent`. -/
structure GContainer where
  lineTexts : List String
  fullText : String
  deriving Repr, DecidableEq

/-- A node match for branch 2: its `textContent`, whether it has the
`query-text-line` class, its parent element (as an id), and whether its
`previousElementSibling` exists, shares its parent, and is a
`query-text-line` (the `continue` guard). -/
structure GNode where
  text : String
  isLine : Bool
  parentId : Nat
  prevSiblingLine : Bool
  deriving Repr, DecidableEq

/-- Branch-1 text of one container: join the line-node texts with spaces
when any exist, else the whole container text; normalize either way. -/
def containerText (c : GContainer) : String :=
  if c.lineTexts.isEmpty then normalize c.fullText
  else normalize (joinSp c.lineTexts)

/-- Branch 1: one group per container with non-empty normalized text. -/
def containersToGroups : List GContainer → List String
  | [] => []
  | c :: cs =>
    let text := containerText c
    if text = "" then containersToGroups cs
    else text :: containersToGroups cs

/-- The inner `while` of branch 2: take the texts of the following nodes
as long as they are line-nodes under parent `p`; return the taken texts
and the remaining nodes. -/
def takeSiblingLines (p : Nat) : List GNode → List String × List GNode
  | [] => ([], [])
  | n :: ns =>
    if n.isLine && n.parentId == p then
      let pr := takeSiblingLines p ns
      (n.text :: pr.1, pr.2)
    else ([], n :: ns)

theorem takeSiblingLines_rest_length (p : Nat) (l : List GNode) :
    (takeSiblingLines p l).2.length ≤ l.length := by
  induction l with
  | nil => simp [takeSiblingLines]
  | cons n ns ih =>
    simp only [takeSiblingLines]
    split
    · exact Nat.le_succ_of_le ih
    · exact Nat.le_refl _

/-- Branch 2 of `SITES.gemini.getQueries`: skip a line-node whose previous
sibling is a line under the same parent; otherwise merge it with the
following sibling line-nodes (join with spaces, normalize); non-line nodes
contribute their own normalized text. Empty texts are not pushed. -/
def geminiNodesToGroups : List GNode → List String
  | [] => []
  | n :: ns =>
    if n.isLine then
      if n.prevSiblingLine then geminiNodesToGroups ns
      else
        let pr := takeSiblingLines n.parentId ns
        let text := normalize (joinSp (n.text :: pr.1))
        if text = "" then geminiNodesToGroups pr.2
        else text :: geminiNodesToGroups pr.2
    else
      let text := normalize n.text
      if text = "" then geminiNodesToGroups ns
      else text :: geminiNodesToGroups ns
  termination_by l => l.length
  decreasing_by
  all_goals simp only [List.length_cons]
  all_goals first
    | exact Nat.lt_succ_of_le (takeSiblingLines_rest_length _ _)
    | exact Nat.lt_succ_of_le (Nat.le_refl _)

/-- The pre-filter groups of `SITES.gemini.getQueries`: branch 1 when the
container selector matched anything, branch 2 otherwise. -/
def geminiGroups (cs : List GContainer) (nodes : List GNode) : List String :=
  if cs.isEmpty then geminiNodesToGroups nodes else containersToGroups cs

/-- The final `groups.filter(...)` of `SITES.gemini.getQueries`: drop
greeting-prefixed texts (lower-cased comparison), then drop
case-insensitive duplicates keeping the first occurrence; only kept texts
enter `seen`. -/
def geminiFilterAux (seen : List String) : List String → List String
  | [] => []
  | t :: ts =>
    let lower := jsToLower t
    if jsStartsWith lower "hello," then geminiFilterAux seen ts
    else if lower ∈ seen then geminiFilterAux seen ts
    else t :: geminiFilterAux (lower :: seen) ts

/-- `SITES.gemini.getQueries`. -/
def geminiGetQueries (cs : List GContainer) (nodes : List GNode) : List String :=
  geminiFilterAux [] (geminiGroups cs nodes)

/-! ## Helper lemmas -/

theorem string_append_empty (s : String) : s ++ "" = s := by
  cases s with | mk l => exact congrArg String.mk (List.append_nil l)

theorem string_empty_append (s : String) : "" ++ s = s := by
  cases s with | mk l => rfl

theorem string_append_assoc (a b c : String) : a ++ b ++ c = a ++ (b ++ c) := by
  cases a; cases b; cases c
  exact congrArg String.mk (List.append_assoc _ _ _)

/-- Merge two adjacent string atoms in a right-associated chain. -/
theorem merge_lit (a b c : String) (h : a ++ b = c) (x : String) :
    a ++ (b ++ x) = c ++ x := by
  rw [← string_append_assoc, h]

theorem populateTOCList_map_title (qs : List String) :
    (populateTOCList qs).map TocRow.title = qs := by
  induction qs with
  | nil => rfl
  | cons q qs ih => simpa [populateTOCList, makeRow] using ih

/-! ## Claim C1 -/

/-- Claim C1: for every input point and every viewport, when the element
fits (dimension `< viewport - 2 * padding`, padding = 10) the clamped
coordinate lies in `[padding, viewport - dimension - padding]`; when the
viewport is smaller than the element plus twice the padding, the clamped
coordinate pins to `padding`. -/
theorem constrain_bounds (W H x y w h : Int) :
    (w < W - 2 * 10 →
      10 ≤ (constrainToViewport W H x y w h).1 ∧
      (constrainToViewport W H x y w h).1 ≤ W - w - 10) ∧
    (h < H - 2 * 10 →
      10 ≤ (constrainToViewport W H x y w h).2 ∧
      (constrainToViewport W H x y w h).2 ≤ H - h - 10) ∧
    (W < w + 2 * 10 → (constrainToViewport W H x y w h).1 = 10) ∧
    (H < h + 2 * 10 → (constrainToViewport W H x y w h).2 = 10) := by
  simp only [constrainToViewport]
  refine ⟨fun hw => ⟨le_max_left _ _, ?_⟩, fun hh => ⟨le_max_left _ _, ?_⟩,
    fun hw => ?_, fun hh => ?_⟩
  · exact max_le (by omega) (min_le_right _ _)
  · exact max_le (by omega) (min_le_right _ _)
  · exact max_eq_left (le_trans (min_le_right _ _) (by omega))
  · exact max_eq_left (le_trans (min_le_right _ _) (by omega))

theorem constrain_bounds_w :
    (10 ≤ (constrainToViewport 800 600 (-50) 9999 300 400).1 ∧
      (constrainToViewport 800 600 (-50) 9999 300 400).1 ≤ 800 - 300 - 10) ∧
    (constrainToViewport 100 600 50 50 300 400).1 = 10 := by
  refine ⟨(constrain_bounds 800 600 (-50) 9999 300 400).1 (by decide), ?_⟩
  exact (constrain_bounds 100 600 50 50 300 400).2.2.1 (by decide)

/-! ## Claim C6 -/

theorem debounce_chain_one (ts : List Int) :
    ∀ t, List.Chain' (fun a b => a ≤ b ∧ b < a + 300) (t :: ts) →
      debounceFires ts (some (t + 300)) = 1 := by
  induction ts with
  | nil => intro t _; rfl
  | cons u us ih =>
    intro t hch
    rw [List.chain'_cons] at hch
    obtain ⟨⟨h1, h2⟩, hch'⟩ := hch
    show (if t + 300 ≤ u then 1 + debounceFires us (some (u + 300))
      else debounceFires us (some (u + 300))) = 1
    rw [if_neg (by omega)]
    exact ih u hch'

/-- Claim C6: any non-empty burst of monitor-triggered rebuild requests in
which each request arrives before the pending 300-unit debounce timer
elapses produces exactly one rebuild execution. -/
theorem debounce_coalesce (ts : List Int) (hne : ts ≠ [])
    (hch : List.Chain' (fun a b => a ≤ b ∧ b < a + 300) ts) :
    debounceFires ts none = 1 := by
  cases ts with
  | nil => exact absurd rfl hne
  | cons t ts' =>
    show debounceFires ts' (some (t + 300)) = 1
    exact debounce_chain_one ts' t hch

theorem debounce_coalesce_w : debounceFires [0, 100, 350] none = 1 := by
  refine debounce_coalesce [0, 100, 350] (by decide) ?_
  rw [List.chain'_cons, List.chain'_cons]
  refine ⟨by omega, by omega, List.chain'_singleton _⟩

/-! ## Claim C7 -/

/-- Claim C7: a rebuild request arriving less than 1000 units after the
previous completed rebuild is dropped with no state change (not queued);
one arriving at or after the interval executes: it stamps the cooldown
clock and rebuilds the panel from the extraction result. -/
theorem rebuild_cooldown (now : Int) (qs : List String) (s : UIState) :
    (now - s.lastCreateTime < 1000 → createTOC now qs s = s) ∧
    (1000 ≤ now - s.lastCreateTime →
      (createTOC now qs s).lastCreateTime = now ∧
      (createTOC now qs s).panel =
        (if qs.isEmpty then none else some (buildTOCStructure qs))) := by
  constructor
  · intro hlt
    simp [createTOC, hlt]
  · intro hge
    have hnot : ¬ now - s.lastCreateTime < 1000 := by omega
    cases qs <;> simp [createTOC, hnot]

theorem rebuild_cooldown_w :
    createTOC 500 ["q"] ⟨0, none⟩ = ⟨0, none⟩ ∧
    (createTOC 2000 ["q"] ⟨0, none⟩).lastCreateTime = 2000 := by
  refine ⟨(rebuild_cooldown 500 ["q"] ⟨0, none⟩).1 (by decide), ?_⟩
  exact ((rebuild_cooldown 2000 ["q"] ⟨0, none⟩).2 (by decide)).1

/-! ## Claim C8 -/

/-- Claim C8: collapsing (which repositions by `+(expandedWidth - 48)` and
remembers the width) and then expanding (which reverses by the remembered
width minus 48 and reclamps) restores the viewport-clamped original
position; the panel ends expanded with its original width. -/
theorem collapse_expand_roundtrip (W H : Int) (b : PanelBox) (hw : b.width ≠ 0) :
    (expandStep W H (collapseStep b)).x =
      (constrainToViewport W H b.x b.y b.width b.height).1 ∧
    (expandStep W H (collapseStep b)).y =
      (constrainToViewport W H b.x b.y b.width b.height).2 ∧
    (expandStep W H (collapseStep b)).collapsed = false ∧
    (expandStep W H (collapseStep b)).width = b.width := by
  have hx : b.x + b.width - 48 - (b.width - 48) = b.x := by ring
  simp [expandStep, collapseStep, parseStoredWidth, hw, hx]

theorem collapse_expand_roundtrip_w :
    (expandStep 800 600 (collapseStep ⟨100, 50, 300, 400, none, false⟩)).x = 100 ∧
    (expandStep 800 600 (collapseStep ⟨100, 50, 300, 400, none, false⟩)).y = 50 ∧
    (expandStep 800 600 (collapseStep ⟨100, 50, 300, 400, none, false⟩)).collapsed = false := by
  obtain ⟨h1, h2, h3, _⟩ :=
    collapse_expand_roundtrip 800 600 ⟨100, 50, 300, 400, none, false⟩ (by decide)
  refine ⟨?_, ?_, h3⟩
  · rw [h1]; decide
  · rw [h2]; decide

/-! ## Claim C10 -/

/-- Claim C10: each panel list row displays the query text itself when it
is at most 70 characters long, and otherwise its first 67 characters
followed by `"..."`; the full text is always kept in the row link's
`title` attribute, and the rows enumerate the queries in order. -/
theorem row_truncation (qs : List String) :
    (populateTOCList qs).map TocRow.title = qs ∧
    ∀ r ∈ populateTOCList qs,
      (r.title.length ≤ 70 → r.display = r.title) ∧
      (70 < r.title.length → r.display = jsSubstring r.title (70 - 3) ++ "...") := by
  refine ⟨populateTOCList_map_title qs, ?_⟩
  intro r hr
  simp only [populateTOCList, List.mem_map] at hr
  obtain ⟨q, _, rfl⟩ := hr
  simp only [makeRow]
  constructor
  · intro hle
    have hn : ¬ q.length > 70 := by omega
    simp [shortText, hn]
  · intro hgt
    simp [shortText, hgt]

/-! ## Claim C5 -/

/-- Claim C5: a rebuild that passes the cooldown first removes any existing
panel; with an empty extraction no panel is present afterwards, and
otherwise exactly one panel is present, with one list row per extracted
query in order and a footer reading `"{N} queries"`. -/
theorem rebuild_panel (now : Int) (qs : List String) (s : UIState)
    (hc : 1000 ≤ now - s.lastCreateTime) :
    (qs = [] → (createTOC now qs s).panel = none) ∧
    (qs ≠ [] →
      (createTOC now qs s).panel = some (buildTOCStructure qs) ∧
      (buildTOCStructure qs).rows.map TocRow.title = qs ∧
      (buildTOCStructure qs).rows.length = qs.length ∧
      (buildTOCStructure qs).footer = toString qs.length ++ " queries") := by
  have hnot : ¬ now - s.lastCreateTime < 1000 := by omega
  constructor
  · rintro rfl
    simp [createTOC, hnot]
  · intro hne
    refine ⟨?_, populateTOCList_map_title qs, ?_, rfl⟩
    · cases qs with
      | nil => exact absurd rfl hne
      | cons q qs' => simp [createTOC, hnot]
    · simp [buildTOCStructure, populateTOCList]

theorem rebuild_panel_w :
    (createTOC 2000 [] ⟨0, some (buildTOCStructure ["old"])⟩).panel = none ∧
    (createTOC 2000 ["Explain recursion"] ⟨0, none⟩).panel
      = some (buildTOCStructure ["Explain recursion"]) ∧
    (buildTOCStructure ["Explain recursion"]).footer = "1 queries" := by
  obtain ⟨he, _⟩ :=
    rebuild_panel 2000 [] ⟨0, some (buildTOCStructure ["old"])⟩ (by decide)
  obtain ⟨_, hn⟩ := rebuild_panel 2000 ["Explain recursion"] ⟨0, none⟩ (by decide)
  obtain ⟨h1, _, _, h2⟩ := hn (by decide)
  refine ⟨he rfl, h1, ?_⟩
  rw [h2]
  decide

/-! ## Claim C9 -/

theorem joinNl_cons_of_ne (x : String) (l : List String) (h : l ≠ []) :
    joinNl (x :: l) = x ++ "\n" ++ joinNl l := by
  cases l with
  | nil => exact absurd rfl h
  | cons y ys => rfl

theorem mdAppendLines_eq (qs : List String) :
    ∀ i acc, mdAppendLines i acc qs = acc ++ joinNl (numberedLines i qs ++ [""]) := by
  induction qs with
  | nil =>
    intro i acc
    simp [mdAppendLines, numberedLines, joinNl, string_append_empty]
  | cons q qs' ih =>
    intro i acc
    show mdAppendLines (i + 1) (acc ++ toString i ++ ". " ++ q ++ "\n") qs'
      = acc ++ joinNl (((toString i ++ ". " ++ q) :: numberedLines (i + 1) qs') ++ [""])
    rw [ih, List.cons_append, joinNl_cons_of_ne _ _ (by simp)]
    simp only [string_append_assoc]

theorem md_shape (sn d : String) (qs : List String) :
    mdAppendLines 1
      ("# " ++ sn ++ " Conversation Summary\n" ++ "_Exported on " ++ d ++ "_\n\n" ++
        "## Queries (" ++ toString qs.length ++ ")\n\n") qs
      = joinNl (mdLinesSpec sn d qs) := by
  rw [mdAppendLines_eq]
  simp only [mdLinesSpec, List.cons_append, List.nil_append]
  rw [joinNl_cons_of_ne _ _ (by simp), joinNl_cons_of_ne _ _ (by simp),
    joinNl_cons_of_ne _ _ (by simp), joinNl_cons_of_ne _ _ (by simp),
    joinNl_cons_of_ne _ _ (by simp)]
  simp only [string_empty_append, string_append_assoc]
  rw [merge_lit "\n" "\n" "\n\n" (by decide), merge_lit "\n" "\n" "\n\n" (by decide),
    merge_lit "_" "\n\n" "_\n\n" (by decide), merge_lit ")" "\n\n" ")\n\n" (by decide),
    merge_lit " Conversation Summary" "\n" " Conversation Summary\n" (by decide)]

/-- Claim C9 (amended): the copy export and the `.md` download both produce
the header line, an `_Exported on ..._` subline, a blank line,
`## Queries (N)`, a blank line, then one numbered line per query — but the
copy export stamps the subline with the locale date while the `.md`
download stamps it with the ISO date (the same string used in the
filename); filenames are `{siteNameLowercase}-queries-{isoDate}.{ext}`
with ext ∈ {md, txt}. -/
theorem export_formats_amended (siteName localeDate isoDate : String) (qs : List String) :
    exportAsMarkdown siteName localeDate qs = joinNl (mdLinesSpec siteName localeDate qs) ∧
    (downloadAsFile siteName isoDate qs ExportFormat.md).1
      = joinNl (mdLinesSpec siteName isoDate qs) ∧
    (downloadAsFile siteName isoDate qs ExportFormat.md).2
      = jsToLower siteName ++ "-queries-" ++ isoDate ++ ".md" ∧
    (downloadAsFile siteName isoDate qs ExportFormat.txt).1 = joinNl (numberedLines 1 qs) ∧
    (downloadAsFile siteName isoDate qs ExportFormat.txt).2
      = jsToLower siteName ++ "-queries-" ++ isoDate ++ ".txt" := by
  exact ⟨md_shape siteName localeDate qs, md_shape siteName isoDate qs, rfl, rfl, rfl⟩

/-- Claim C9 counterexample: the `.md` download stamps the subline with the
ISO date, not the locale date: at a moment when the locale date renders
`10/11/2026` and the ISO date `2026-10-11`, the downloaded file's second
line carries the ISO form, which differs from the claimed
`_Exported on {localeDate}_`. -/
theorem export_locale_cex :
    (downloadAsFile "Claude" "2026-10-11" ["Explain recursion"] ExportFormat.md).1
      = joinNl (mdLinesSpec "Claude" "2026-10-11" ["Explain recursion"]) ∧
    (downloadAsFile "Claude" "2026-10-11" ["Explain recursion"] ExportFormat.md).1
      ≠ joinNl (mdLinesSpec "Claude" "10/11/2026" ["Explain recursion"]) ∧
    (mdLinesSpec "Claude" "2026-10-11" ["Explain recursion"]).get? 1
      = some "_Exported on 2026-10-11_" := by
  refine ⟨by decide, by decide, by decide⟩

theorem row_truncation_w :
    (makeRow "hi").display = "hi" ∧
    (makeRow (String.mk (List.replicate 80 'x'))).display =
      jsSubstring (String.mk (List.replicate 80 'x')) (70 - 3) ++ "..." := by
  have h1 := (row_truncation ["hi"]).2 (makeRow "hi") (by simp [populateTOCList])
  have h2 := (row_truncation [String.mk (List.replicate 80 'x')]).2
    (makeRow (String.mk (List.replicate 80 'x'))) (by simp [populateTOCList])
  exact ⟨h1.1 (by decide), h2.2 (by decide)⟩

/-! ## Claim C2 -/

theorem dedupKeep_sublist (key : String → String) (l : List String) :
    ∀ seen, (dedupKeep key seen l).Sublist l := by
  induction l with
  | nil => intro seen; simp [dedupKeep]
  | cons t ts ih =>
    intro seen
    simp only [dedupKeep]
    split
    · exact (ih seen).cons t
    · exact (ih (key t :: seen)).cons₂ t

theorem dedupKeep_key_not_seen (key : String → String) (l : List String) :
    ∀ seen t, t ∈ dedupKeep key seen l → key t ∉ seen := by
  induction l with
  | nil => intro seen t ht; simp [dedupKeep] at ht
  | cons u us ih =>
    intro seen t ht
    simp only [dedupKeep] at ht
    by_cases hu : key u ∈ seen
    · rw [if_pos hu] at ht
      exact ih seen t ht
    · rw [if_neg hu] at ht
      rcases List.mem_cons.mp ht with rfl | hmem
      · exact hu
      · intro hk
        exact ih _ t hmem (List.mem_cons_of_mem _ hk)

theorem dedupKeep_pairwise (key : String → String) (l : List String) :
    ∀ seen, (dedupKeep key seen l).Pairwise (fun a b => key a ≠ key b) := by
  induction l with
  | nil => intro seen; simp [dedupKeep]
  | cons u us ih =>
    intro seen
    simp only [dedupKeep]
    split
    · exact ih seen
    · refine List.Pairwise.cons ?_ (ih (key u :: seen))
      intro b hb hkb
      have hns := dedupKeep_key_not_seen key us (key u :: seen) b hb
      exact hns (by rw [← hkb]; exact List.mem_cons_self _ _)

theorem dedupKeep_head_filter (key : String → String) (l : List String) :
    ∀ seen t, t ∈ l → key t ∉ seen →
      ((dedupKeep key seen l).filter (fun u => key u == key t)).head?
        = (l.filter (fun u => key u == key t)).head? := by
  induction l with
  | nil => intro seen t ht _; simp at ht
  | cons u us ih =>
    intro seen t ht hks
    simp only [dedupKeep]
    by_cases hu : key u ∈ seen
    · rw [if_pos hu]
      have hne : (key u == key t) = false := by
        refine beq_eq_false_iff_ne.mpr fun h => hks (h ▸ hu)
      have ht' : t ∈ us := by
        rcases List.mem_cons.mp ht with rfl | h
        · exact absurd hu hks
        · exact h
      rw [List.filter_cons, if_neg (by simp [hne])]
      exact ih seen t ht' hks
    · rw [if_neg hu]
      by_cases hkey : key u = key t
      · have hbe : (key u == key t) = true := beq_iff_eq.mpr hkey
        rw [List.filter_cons, List.filter_cons, if_pos (by simp [hbe]),
          if_pos (by simp [hbe])]
        simp
      · have hbne : (key u == key t) = false := beq_eq_false_iff_ne.mpr hkey
        have ht' : t ∈ us := by
          rcases List.mem_cons.mp ht with rfl | h
          · exact absurd rfl hkey
          · exact h
        rw [List.filter_cons, List.filter_cons, if_neg (by simp [hbne]),
          if_neg (by simp [hbne])]
        refine ih (key u :: seen) t ht' ?_
        intro hmem
        rcases List.mem_cons.mp hmem with h | h
        · exact hkey h.symm
        · exact hks h

/-- Claim C2 (amended): the Site D (Claude) extractor deduplicates by
comparing the first 100 characters of the trimmed text
**case-sensitively**, keeping the first occurrence in document order: the
output is an order-preserving subsequence of the pre-dedup sequence with
pairwise distinct keys, and for every pre-dedup query the output's
representative with its key is the first pre-dedup occurrence of that
key. -/
theorem claude_dedup_amended (tiers : List (List String)) :
    (claudeGetQueries tiers).Sublist (claudePick tiers) ∧
    (claudeGetQueries tiers).Pairwise (fun a b => claudeKey a ≠ claudeKey b) ∧
    ∀ t ∈ claudePick tiers,
      ((claudeGetQueries tiers).filter (fun u => claudeKey u == claudeKey t)).head?
        = ((claudePick tiers).filter (fun u => claudeKey u == claudeKey t)).head? := by
  refine ⟨dedupKeep_sublist claudeKey (claudePick tiers) [],
    dedupKeep_pairwise claudeKey (claudePick tiers) [], ?_⟩
  intro t ht
  exact dedupKeep_head_filter claudeKey (claudePick tiers) [] t ht (by simp)

theorem claude_dedup_amended_w :
    (claudeGetQueries [["Aa", "aa", "Aa"]]).Pairwise
      (fun a b => claudeKey a ≠ claudeKey b) ∧
    ((claudeGetQueries [["Aa", "aa", "Aa"]]).filter
        (fun u => claudeKey u == claudeKey "Aa")).head?
      = ((claudePick [["Aa", "aa", "Aa"]]).filter
        (fun u => claudeKey u == claudeKey "Aa")).head? := by
  obtain ⟨_, hp, hf⟩ := claude_dedup_amended [["Aa", "aa", "Aa"]]
  exact ⟨hp, hf "Aa" (by decide)⟩

/-- Claim C2 counterexample: the code's dedup key is `substring(0, 100)`
with no case folding, so two queries whose first 100 characters differ
only in case — here `"Aa"` and `"aa"` — both survive, where the claim says
only the earlier may appear. -/
theorem claude_dedup_cex :
    claudeGetQueries [["Aa", "aa"]] = ["Aa", "aa"] ∧
    jsToLower (claudeKey "Aa") = jsToLower (claudeKey "aa") ∧
    "Aa" ≠ "aa" := by
  refine ⟨by decide, by decide, by decide⟩

/-! ## Claim C4 -/

theorem gfa_sublist (l : List String) :
    ∀ seen, (geminiFilterAux seen l).Sublist l := by
  induction l with
  | nil => intro seen; simp [geminiFilterAux]
  | cons t ts ih =>
    intro seen
    simp only [geminiFilterAux]
    split
    · exact (ih seen).cons t
    · split
      · exact (ih seen).cons t
      · exact (ih (jsToLower t :: seen)).cons₂ t

theorem gfa_not_greeting (l : List String) :
    ∀ seen t, t ∈ geminiFilterAux seen l →
      jsStartsWith (jsToLower t) "hello," = false := by
  induction l with
  | nil => intro seen t ht; simp [geminiFilterAux] at ht
  | cons u us ih =>
    intro seen t ht
    simp only [geminiFilterAux] at ht
    by_cases h1 : jsStartsWith (jsToLower u) "hello," = true
    · rw [if_pos h1] at ht
      exact ih seen t ht
    · rw [if_neg h1] at ht
      by_cases h2 : jsToLower u ∈ seen
      · rw [if_pos h2] at ht
        exact ih seen t ht
      · rw [if_neg h2] at ht
        rcases List.mem_cons.mp ht with rfl | hmem
        · simpa using h1
        · exact ih _ t hmem

theorem gfa_key_not_seen (l : List String) :
    ∀ seen t, t ∈ geminiFilterAux seen l → jsToLower t ∉ seen := by
  induction l with
  | nil => intro seen t ht; simp [geminiFilterAux] at ht
  | cons u us ih =>
    intro seen t ht
    simp only [geminiFilterAux] at ht
    by_cases h1 : jsStartsWith (jsToLower u) "hello," = true
    · rw [if_pos h1] at ht
      exact ih seen t ht
    · rw [if_neg h1] at ht
      by_cases h2 : jsToLower u ∈ seen
      · rw [if_pos h2] at ht
        exact ih seen t ht
      · rw [if_neg h2] at ht
        rcases List.mem_cons.mp ht with rfl | hmem
        · exact h2
        · intro hk
          exact ih _ t hmem (List.mem_cons_of_mem _ hk)

theorem gfa_pairwise (l : List String) :
    ∀ seen, (geminiFilterAux seen l).Pairwise
      (fun a b => jsToLower a ≠ jsToLower b) := by
  induction l with
  | nil => intro seen; simp [geminiFilterAux]
  | cons u us ih =>
    intro seen
    simp only [geminiFilterAux]
    split
    · exact ih seen
    · split
      · exact ih seen
      · refine List.Pairwise.cons ?_ (ih (jsToLower u :: seen))
        intro b hb hkb
        have hns := gfa_key_not_seen us (jsToLower u :: seen) b hb
        exact hns (by rw [← hkb]; exact List.mem_cons_self _ _)

theorem gfa_head_filter (l : List String) :
    ∀ seen t, t ∈ l → jsStartsWith (jsToLower t) "hello," = false →
      jsToLower t ∉ seen →
      ((geminiFilterAux seen l).filter (fun u => jsToLower u == jsToLower t)).head?
        = (l.filter (fun u => jsToLower u == jsToLower t)).head? := by
  induction l with
  | nil => intro seen t ht _ _; simp at ht
  | cons u us ih =>
    intro seen t ht hgr hks
    simp only [geminiFilterAux]
    by_cases h1 : jsStartsWith (jsToLower u) "hello," = true
    · rw [if_pos h1]
      have hne : (jsToLower u == jsToLower t) = false := by
        refine beq_eq_false_iff_ne.mpr fun h => ?_
        rw [h, hgr] at h1
        cases h1
      have ht' : t ∈ us := by
        rcases List.mem_cons.mp ht with rfl | h
        · rw [hgr] at h1; cases h1
        · exact h
      rw [List.filter_cons, if_neg (by simp [hne])]
      exact ih seen t ht' hgr hks
    · rw [if_neg h1]
      by_cases h2 : jsToLower u ∈ seen
      · rw [if_pos h2]
        have hne : (jsToLower u == jsToLower t) = false :=
          beq_eq_false_iff_ne.mpr fun h => hks (h ▸ h2)
        have ht' : t ∈ us := by
          rcases List.mem_cons.mp ht with rfl | h
          · exact absurd h2 hks
          · exact h
        rw [List.filter_cons, if_neg (by simp [hne])]
        exact ih seen t ht' hgr hks
      · rw [if_neg h2]
        by_cases hkey : jsToLower u = jsToLower t
        · have hbe : (jsToLower u == jsToLower t) = true := beq_iff_eq.mpr hkey
          rw [List.filter_cons, List.filter_cons, if_pos (by simp [hbe]),
            if_pos (by simp [hbe])]
          simp
        · have hbne : (jsToLower u == jsToLower t) = false :=
            beq_eq_false_iff_ne.mpr hkey
          have ht' : t ∈ us := by
            rcases List.mem_cons.mp ht with rfl | h
            · exact absurd rfl hkey
            · exact h
          rw [List.filter_cons, List.filter_cons, if_neg (by simp [hbne]),
            if_neg (by simp [hbne])]
          refine ih (jsToLower u :: seen) t ht' hgr ?_
          intro hmem
          rcases List.mem_cons.mp hmem with h | h
          · exact hkey h.symm
          · exact hks h

/-- Claim C4: the Gemini extractor merges consecutive sibling line-nodes
under the same parent into one query (joined with single spaces, internal
whitespace collapsed), falls back to the whole container text when no
line-nodes exist, and then drops greeting-prefixed results as well as
case-insensitive exact duplicates, keeping the first occurrence (the
output is an order-preserving greeting-free subsequence of the merged
groups with pairwise distinct lowered texts, each group represented by its
first occurrence). -/
theorem gemini_extractor (a b c full lsf : String) (ls : List String) (p : Nat)
    (cs : List GContainer) (nodes : List GNode)
    (hne : normalize (joinSp [a, b, c]) ≠ "")
    (hgr : jsStartsWith (jsToLower (normalize (joinSp [a, b, c]))) "hello," = false)
    (hfne : normalize full ≠ "")
    (hfgr : jsStartsWith (jsToLower (normalize full)) "hello," = false)
    (hls : ls ≠ []) :
    geminiGetQueries [] [⟨a, true, p, false⟩, ⟨b, true, p, true⟩, ⟨c, true, p, true⟩]
      = [normalize (joinSp [a, b, c])] ∧
    geminiGetQueries [⟨[], full⟩] [] = [normalize full] ∧
    containerText ⟨ls, lsf⟩ = normalize (joinSp ls) ∧
    (∀ t ∈ geminiGetQueries cs nodes, jsStartsWith (jsToLower t) "hello," = false) ∧
    (geminiGetQueries cs nodes).Sublist (geminiGroups cs nodes) ∧
    (geminiGetQueries cs nodes).Pairwise (fun s t => jsToLower s ≠ jsToLower t) ∧
    (∀ t ∈ geminiGroups cs nodes, jsStartsWith (jsToLower t) "hello," = false →
      ((geminiGetQueries cs nodes).filter (fun u => jsToLower u == jsToLower t)).head?
        = ((geminiGroups cs nodes).filter
            (fun u => jsToLower u == jsToLower t)).head?) := by
  refine ⟨?_, ?_, ?_, ?_, gfa_sublist _ [], gfa_pairwise _ [], ?_⟩
  · simp [geminiGetQueries, geminiGroups, geminiNodesToGroups, takeSiblingLines,
      hne, geminiFilterAux, hgr]
  · simp [geminiGetQueries, geminiGroups, containersToGroups, containerText,
      hfne, geminiFilterAux, hfgr]
  · simp [containerText, hls]
  · intro t ht
    exact gfa_not_greeting _ [] t ht
  · intro t ht htg
    exact gfa_head_filter _ [] t ht htg (by simp)

theorem gemini_extractor_w :
    geminiGetQueries []
        [⟨"a", true, 0, false⟩, ⟨"b", true, 0, true⟩, ⟨"c", true, 0, true⟩]
      = ["a b c"] ∧
    geminiGetQueries [⟨[], " full  text "⟩] [] = ["full text"] ∧
    (∀ t ∈ geminiGetQueries [⟨[], "Hello, there"⟩, ⟨[], "A B"⟩, ⟨[], "a  b"⟩] [],
      jsStartsWith (jsToLower t) "hello," = false) := by
  obtain ⟨h1, h2, _, h4, _, _, _⟩ :=
    gemini_extractor "a" "b" "c" " full  text " "" ["x"] 0
      [⟨[], "Hello, there"⟩, ⟨[], "A B"⟩, ⟨[], "a  b"⟩] []
      (by decide) (by decide) (by decide) (by decide) (by decide)
  refine ⟨?_, ?_, h4⟩
  · rw [h1]; decide
  · rw [h2]; decide

/-! ## Claim C3 -/

theorem headNotWs_dropWhile (l : List Char) :
    headNotWs (l.dropWhile isWs) = true := by
  induction l with
  | nil => rfl
  | cons c cs ih =>
    cases hc : isWs c with
    | true => rw [List.dropWhile_cons_of_pos hc]; exact ih
    | false => rw [List.dropWhile_cons_of_neg (by simp [hc])]; simp [headNotWs, hc]

theorem head_isWs_false (m : List Char) (h : headNotWs m = true) :
    ∀ c ∈ m.head?, isWs c = false := by
  cases m with
  | nil => intro c hc; simp at hc
  | cons d ds =>
    intro c hc
    simp only [List.head?, Option.mem_def, Option.some.injEq] at hc
    subst hc
    simpa [headNotWs] using h

theorem dropWhile_append_notWs (c : Char) (hc : isWs c = false) (xs : List Char) :
    (xs ++ [c]).dropWhile isWs = xs.dropWhile isWs ++ [c] := by
  induction xs with
  | nil =>
    rw [List.nil_append, List.dropWhile_cons_of_neg (by simp [hc])]
    rfl
  | cons x xs ih =>
    cases hx : isWs x with
    | true =>
      rw [List.cons_append, List.dropWhile_cons_of_pos hx,
        List.dropWhile_cons_of_pos hx, ih]
    | false =>
      rw [List.cons_append, List.dropWhile_cons_of_neg (by simp [hx]),
        List.dropWhile_cons_of_neg (by simp [hx])]
      rfl

theorem headNotWs_trimRightL (m : List Char) (h : headNotWs m = true) :
    headNotWs (trimRightL m) = true := by
  cases m with
  | nil => rfl
  | cons d ds =>
    have hd : isWs d = false := by simpa [headNotWs] using h
    show headNotWs (((d :: ds).reverse.dropWhile isWs).reverse) = true
    rw [List.reverse_cons, dropWhile_append_notWs d hd, List.reverse_append]
    simp [headNotWs, hd]

theorem lastNotWs_trimRightL (m : List Char) :
    headNotWs (trimRightL m).reverse = true := by
  show headNotWs ((m.reverse.dropWhile isWs).reverse).reverse = true
  rw [List.reverse_reverse]
  exact headNotWs_dropWhile _

theorem noTwo_dropWhile (l : List Char) (h : NoTwoWs l) :
    NoTwoWs (l.dropWhile isWs) := by
  induction l with
  | nil => exact h
  | cons c cs ih =>
    cases hc : isWs c with
    | true => rw [List.dropWhile_cons_of_pos hc]; exact ih h.tail
    | false => rw [List.dropWhile_cons_of_neg (by simp [hc])]; exact h

theorem noTwo_reverse (l : List Char) (h : NoTwoWs l) : NoTwoWs l.reverse :=
  (List.chain'_reverse).mpr
    (List.Chain'.imp (fun _ _ hab hh => hab ⟨hh.2, hh.1⟩) h)

theorem noTwo_trimList (m : List Char) (h : NoTwoWs m) : NoTwoWs (trimList m) :=
  noTwo_reverse _ (noTwo_dropWhile _ (noTwo_reverse _ (noTwo_dropWhile _ h)))

theorem wsOnly_trimList (m : List Char) (h : ∀ c ∈ m, isWs c = true → c = ' ') :
    ∀ c ∈ trimList m, isWs c = true → c = ' ' := by
  intro c hc hw
  refine h c ?_ hw
  simp only [trimList, trimRightL, trimLeftL] at hc
  rw [List.mem_reverse] at hc
  have hc2 := (List.dropWhile_sublist _).subset hc
  rw [List.mem_reverse] at hc2
  exact (List.dropWhile_sublist _).subset hc2

theorem collapse_wsOnly (l : List Char) :
    ∀ b, ∀ c ∈ collapseAux b l, isWs c = true → c = ' ' := by
  induction l with
  | nil => intro b c hc; simp [collapseAux] at hc
  | cons d ds ih =>
    intro b c hc hw
    simp only [collapseAux] at hc
    by_cases hd : isWs d = true
    · rw [if_pos hd] at hc
      cases b with
      | true => rw [if_pos rfl] at hc; exact ih true c hc hw
      | false =>
        rw [if_neg (by simp)] at hc
        rcases List.mem_cons.mp hc with rfl | hm
        · rfl
        · exact ih true c hm hw
    · rw [if_neg hd] at hc
      rcases List.mem_cons.mp hc with rfl | hm
      · exact absurd hw hd
      · exact ih false c hm hw

theorem collapse_head_true (l : List Char) :
    headNotWs (collapseAux true l) = true := by
  induction l with
  | nil => rfl
  | cons d ds ih =>
    by_cases hd : isWs d = true
    · simpa [collapseAux, hd] using ih
    · have hd' : isWs d = false := by revert hd; cases isWs d <;> simp
      simp [collapseAux, hd', headNotWs]

theorem collapse_noTwo (l : List Char) : ∀ b, NoTwoWs (collapseAux b l) := by
  induction l with
  | nil => intro b; exact List.chain'_nil
  | cons d ds ih =>
    intro b
    by_cases hd : isWs d = true
    · cases b with
      | true => simpa [collapseAux, hd] using ih true
      | false =>
        have hrw : collapseAux false (d :: ds) = ' ' :: collapseAux true ds := by
          simp [collapseAux, hd]
        rw [hrw]
        refine (List.chain'_cons').mpr ⟨?_, ih true⟩
        intro y hy hh
        have hyw := head_isWs_false _ (collapse_head_true ds) y hy
        simp [hyw] at hh
    · have hd' : isWs d = false := by revert hd; cases isWs d <;> simp
      have hrw : collapseAux b (d :: ds) = d :: collapseAux false ds := by
        simp [collapseAux, hd']
      rw [hrw]
      refine (List.chain'_cons').mpr ⟨?_, ih false⟩
      intro y hy hh
      rw [hd'] at hh
      exact absurd hh.1 (by simp)

theorem jsTrim_trimmed (s : String) : TrimmedStr (jsTrim s) := by
  constructor
  · show headNotWs (trimList s.data) = true
    exact headNotWs_trimRightL _ (headNotWs_dropWhile _)
  · show headNotWs (trimList s.data).reverse = true
    exact lastNotWs_trimRightL _

theorem normalize_normalized (s : String) : NormalizedStr (normalize s) := by
  refine ⟨jsTrim_trimmed _, ?_, ?_⟩
  · show NoTwoWs (trimList (collapseWs s).data)
    exact noTwo_trimList _ (collapse_noTwo s.data false)
  · show ∀ c ∈ trimList (collapseWs s).data, isWs c = true → c = ' '
    exact wsOnly_trimList _ (collapse_wsOnly s.data false)

theorem chatgpt_text_props (texts : List String) :
    ∀ t ∈ chatgptGetQueries texts, t ≠ "" ∧ TrimmedStr t := by
  induction texts with
  | nil => intro t ht; simp [chatgptGetQueries] at ht
  | cons u us ih =>
    intro t ht
    simp only [chatgptGetQueries] at ht
    by_cases hu : jsTrim u = ""
    · rw [if_pos hu] at ht
      exact ih t ht
    · rw [if_neg hu] at ht
      rcases List.mem_cons.mp ht with rfl | hm
      · exact ⟨hu, jsTrim_trimmed u⟩
      · exact ih t hm

theorem trimmed_filter_map (l : List String) :
    ∀ t ∈ (l.map jsTrim).filter (fun t => t != ""), t ≠ "" ∧ TrimmedStr t := by
  intro t ht
  rw [List.mem_filter] at ht
  obtain ⟨hm, hne⟩ := ht
  rw [List.mem_map] at hm
  obtain ⟨s, _, rfl⟩ := hm
  exact ⟨bne_iff_ne.mp hne, jsTrim_trimmed s⟩

theorem perplexity_text_props (primary fallback : List String) :
    ∀ t ∈ perplexityGetQueries primary fallback, t ≠ "" ∧ TrimmedStr t := by
  intro t ht
  simp only [perplexityGetQueries] at ht
  split at ht
  · exact trimmed_filter_map _ t ht
  · exact trimmed_filter_map _ t ht

theorem claudePick_text_props (tiers : List (List String)) :
    ∀ t ∈ claudePick tiers, t ≠ "" ∧ TrimmedStr t := by
  induction tiers with
  | nil => intro t ht; simp [claudePick] at ht
  | cons tier rest ih =>
    intro t ht
    simp only [claudePick] at ht
    split at ht
    · exact ih t ht
    · split at ht
      · exact ih t ht
      · exact trimmed_filter_map _ t ht

theorem geminiNodes_text_props (nodes : List GNode) :
    ∀ t ∈ geminiNodesToGroups nodes, t ≠ "" ∧ ∃ s, t = normalize s := by
  induction nodes using geminiNodesToGroups.induct with
  | case1 => intro t ht; simp [geminiNodesToGroups] at ht
  | case2 n ns hline hprev ih =>
    intro t ht
    rw [geminiNodesToGroups] at ht
    rw [if_pos hline, if_pos hprev] at ht
    exact ih t ht
  | case3 n ns hline hprev pr text hemp ih =>
    intro t ht
    rw [geminiNodesToGroups] at ht
    rw [if_pos hline, if_neg hprev] at ht
    simp only [if_pos hemp] at ht
    exact ih t ht
  | case4 n ns hline hprev pr text hemp ih =>
    intro t ht
    rw [geminiNodesToGroups] at ht
    rw [if_pos hline, if_neg hprev] at ht
    simp only [if_neg hemp] at ht
    rcases List.mem_cons.mp ht with rfl | hm
    · exact ⟨hemp, _, rfl⟩
    · exact ih t hm
  | case5 n ns hline text hemp ih =>
    intro t ht
    rw [geminiNodesToGroups] at ht
    rw [if_neg hline] at ht
    simp only [if_pos hemp] at ht
    exact ih t ht
  | case6 n ns hline text hemp ih =>
    intro t ht
    rw [geminiNodesToGroups] at ht
    rw [if_neg hline] at ht
    simp only [if_neg hemp] at ht
    rcases List.mem_cons.mp ht with rfl | hm
    · exact ⟨hemp, _, rfl⟩
    · exact ih t hm

theorem containers_text_props (cs : List GContainer) :
    ∀ t ∈ containersToGroups cs, t ≠ "" ∧ ∃ s, t = normalize s := by
  induction cs with
  | nil => intro t ht; simp [containersToGroups] at ht
  | cons c cs ih =>
    intro t ht
    simp only [containersToGroups] at ht
    by_cases hc : containerText c = ""
    · rw [if_pos hc] at ht
      exact ih t ht
    · rw [if_neg hc] at ht
      rcases List.mem_cons.mp ht with rfl | hm
      · refine ⟨hc, ?_⟩
        simp only [containerText]
        split
        · exact ⟨_, rfl⟩
        · exact ⟨_, rfl⟩
      · exact ih t hm

theorem gemini_text_props (cs : List GContainer) (nodes : List GNode) :
    ∀ t ∈ geminiGetQueries cs nodes, t ≠ "" ∧ NormalizedStr t := by
  intro t ht
  have hg : t ∈ geminiGroups cs nodes := (gfa_sublist _ []).subset ht
  have hp : t ≠ "" ∧ ∃ s, t = normalize s := by
    simp only [geminiGroups] at hg
    split at hg
    · exact geminiNodes_text_props _ t hg
    · exact containers_text_props _ t hg
  obtain ⟨hne, s, rfl⟩ := hp
  exact ⟨hne, normalize_normalized s⟩

/-- Claim C3 (amended): every extracted query text is non-empty and
trimmed at both ends; the Gemini adapter's texts are additionally fully
whitespace-normalized (runs of whitespace collapsed to single spaces); the
ChatGPT, Perplexity and Claude adapters leave internal whitespace as the
DOM provides it. -/
theorem adapter_text_amended (texts primary fallback : List String)
    (tiers : List (List String)) (cs : List GContainer) (nodes : List GNode) :
    (∀ t ∈ chatgptGetQueries texts, t ≠ "" ∧ TrimmedStr t) ∧
    (∀ t ∈ perplexityGetQueries primary fallback, t ≠ "" ∧ TrimmedStr t) ∧
    (∀ t ∈ claudeGetQueries tiers, t ≠ "" ∧ TrimmedStr t) ∧
    (∀ t ∈ geminiGetQueries cs nodes, t ≠ "" ∧ NormalizedStr t) := by
  refine ⟨chatgpt_text_props texts, perplexity_text_props primary fallback,
    ?_, gemini_text_props cs nodes⟩
  intro t ht
  exact claudePick_text_props tiers t ((dedupKeep_sublist _ _ []).subset ht)

theorem adapter_text_amended_w :
    ("a  b" ≠ "" ∧ TrimmedStr "a  b") ∧ ("full text" ≠ "" ∧ NormalizedStr "full text") := by
  obtain ⟨hc, _, _, hg⟩ :=
    adapter_text_amended [" a  b "] [] [] [] [⟨[], " full  text "⟩] []
  exact ⟨hc "a  b" (by decide), hg "full text" (by decide)⟩

/-- Claim C3 counterexample: the ChatGPT extractor only trims; a text with
an internal run of whitespace — here `"a  b"` — is returned verbatim, and
it is not whitespace-normalized (normalizing it changes it). -/
theorem chatgpt_ws_cex :
    chatgptGetQueries ["a  b"] = ["a  b"] ∧ normalize "a  b" ≠ "a  b" := by
  refine ⟨by decide, by decide⟩

end TOC
